import Mathlib

/-!
Verification of the live audio session engine of this repository
(`src/audioUtils.js` and `src/App.jsx`) against its specification.

Conventions of the shallow embedding:
* JavaScript numbers are modelled as `ℚ`. On the encode path this is
  exact: a float32 sample (24-bit significand) times 32767 or 32768 fits
  in 53 bits, so the double products the source computes are exact
  rationals. On the decode path the division `int16 / 32767` and the
  `Float32Array` store do round, and that rounding is modelled
  explicitly (`roundFloat`, round to nearest, ties to even, at 53 and
  24 bits).
* Binary buffers (`ArrayBuffer`, `Uint8Array`) are `List ℕ` with every
  element below 256; base64 strings are lists of character codes.
* `Float32Array` sample buffers are `List ℚ`.
-/

set_option maxHeartbeats 1000000

namespace AudioSocket

/-! ## Codec — `src/src/audioUtils.js` -/

/-- The clamping step `Math.max(-1, Math.min(1, float32Array[i]))` of
`floatTo16BitPCM` (audioUtils.js line 11). -/
def clamp16 (x : ℚ) : ℚ := max (-1) (min 1 x)

/-- The scaling step `sample < 0 ? sample * 0x8000 : sample * 0x7FFF` of
`floatTo16BitPCM` (audioUtils.js line 12). -/
def scaleSample (s : ℚ) : ℚ := if s < 0 then s * 32768 else s * 32767

/-- The number-to-integer conversion JavaScript applies inside
`DataView.setInt16`: truncation toward zero (ECMAScript `ToInt16`,
first step), computed on the reduced fraction by truncating integer
division. -/
def jsTrunc (q : ℚ) : ℤ := q.num.tdiv q.den

/-- The wrap-to-signed-16-bit step of ECMAScript `ToInt16`, applied by
`DataView.setInt16` after truncation. -/
def toInt16 (i : ℤ) : ℤ :=
  if i % 65536 < 32768 then i % 65536 else i % 65536 - 65536

/-- The signed 16-bit integer `floatTo16BitPCM` stores for one input
sample (audioUtils.js lines 11-12). -/
def encodeSampleInt (x : ℚ) : ℤ := toInt16 (jsTrunc (scaleSample (clamp16 x)))

/-- The little-endian byte pair written by `view.setInt16(offset, v, true)`
for a signed value `v` in range: low byte first. -/
def int16Bytes (v : ℤ) : List ℕ :=
  [(v % 65536).toNat % 256, (v % 65536).toNat / 256]

/-- Embedding of `floatTo16BitPCM` (audioUtils.js lines 5-16): clamp each sample, scale
(negative × 0x8000, non-negative × 0x7FFF), store as little-endian signed
16-bit integers; output byte buffer. -/
def floatTo16BitPCM : List ℚ → List ℕ
  | [] => []
  | x :: xs => int16Bytes (encodeSampleInt x) ++ floatTo16BitPCM xs

/-- Reading `view.getInt16(i * 2, true)` — assemble a signed 16-bit value from a
little-endian byte pair (audioUtils.js line 71). -/
def int16OfBytes (lo hi : ℕ) : ℤ :=
  if lo + 256 * hi < 32768 then (lo + 256 * hi : ℤ)
  else (lo + 256 * hi : ℤ) - 65536

/-- Round to the nearest integer, ties to even — the IEEE 754 default
rounding applied by JavaScript arithmetic and by `Float32Array`
storage. -/
def rne (q : ℚ) : ℤ :=
  if q - ⌊q⌋ < 1 / 2 then ⌊q⌋
  else if 1 / 2 < q - ⌊q⌋ then ⌊q⌋ + 1
  else if ⌊q⌋ % 2 = 0 then ⌊q⌋ else ⌊q⌋ + 1

/-- First approximation of the binary exponent of a positive rational:
within one of the true floor of its base-2 logarithm. -/
def log2floorAux (q : ℚ) : ℤ := (Nat.log2 q.num.toNat : ℤ) - (Nat.log2 q.den : ℤ)

/-- The binary exponent of a positive rational: the unique `e` with
`2^e ≤ q < 2^(e+1)`. -/
def log2floor (q : ℚ) : ℤ :=
  if (2 : ℚ) ^ log2floorAux q ≤ q then log2floorAux q else log2floorAux q - 1

/-- Round a positive rational to a `p`-bit binary significand, nearest,
ties to even: scale into `[2^(p-1), 2^p)`, round to an integer, scale
back. Models IEEE 754 rounding for normal-range magnitudes (every value
this development rounds is far from the overflow and subnormal
ranges). -/
def roundPos (p : ℕ) (q : ℚ) : ℚ :=
  (rne (q * (2 : ℚ) ^ ((p : ℤ) - 1 - log2floor q)) : ℚ) *
    (2 : ℚ) ^ (log2floor q - (p : ℤ) + 1)

/-- Round a rational to a `p`-bit floating-point value (nearest, ties to
even), for normal-range magnitudes: `p = 53` is an IEEE double, `p = 24`
a `Float32Array` element. -/
def roundFloat (p : ℕ) (q : ℚ) : ℚ :=
  if q = 0 then 0
  else if 0 < q then roundPos p q
  else -roundPos p (-q)

/-- The per-sample decode step `int16 / (int16 < 0 ? 0x8000 : 0x7FFF)` of
`playAudioData` (audioUtils.js line 72), with JavaScript number
semantics: the division is performed in doubles (rounded to 53 bits) and
the result is stored into a `Float32Array` (rounded again to 24 bits). -/
def int16ToFloat (i : ℤ) : ℚ :=
  roundFloat 24 (roundFloat 53 (if i < 0 then (i : ℚ) / 32768 else (i : ℚ) / 32767))

/-- The PCM16-to-float decode loop of `playAudioData` (audioUtils.js
lines 67-73): consume little-endian byte pairs; a trailing odd byte is
ignored (`view.byteLength / 2` is floored by the `Float32Array` length
conversion). -/
def pcm16ToFloats : List ℕ → List ℚ
  | lo :: hi :: rest => int16ToFloat (int16OfBytes lo hi) :: pcm16ToFloats rest
  | _ => []

/-! ## Base64 — `arrayBufferToBase64` / `base64ToArrayBuffer`

The source builds a binary string and calls the platform functions `btoa` /
`atob` (RFC 4648 base64); both are embedded here over byte lists, with
base64 output represented as the list of character codes. -/

/-- Character code of the base64 alphabet symbol for a 6-bit group
(`A`-`Z`, `a`-`z`, `0`-`9`, `+`, `/`), as produced by `btoa`. -/
def sixToChar (n : ℕ) : ℕ :=
  if n < 26 then 65 + n
  else if n < 52 then 71 + n
  else if n < 62 then n - 4
  else if n = 62 then 43
  else 47

/-- Inverse of `sixToChar` on the base64 alphabet, as consumed by `atob`. -/
def charToSix (c : ℕ) : ℕ :=
  if c = 43 then 62
  else if c = 47 then 63
  else if c < 58 then c + 4
  else if c < 91 then c - 65
  else c - 71

/-- Embedding of `arrayBufferToBase64` (audioUtils.js lines 40-48): byte list to base64
character codes, `=` (code 61) padding as emitted by `btoa`. -/
def arrayBufferToBase64 : List ℕ → List ℕ
  | [] => []
  | [a] => [sixToChar (a / 4), sixToChar (a % 4 * 16), 61, 61]
  | [a, b] => [sixToChar (a / 4), sixToChar (a % 4 * 16 + b / 16),
               sixToChar (b % 16 * 4), 61]
  | a :: b :: c :: rest =>
      sixToChar (a / 4) :: sixToChar (a % 4 * 16 + b / 16) ::
      sixToChar (b % 16 * 4 + c / 64) :: sixToChar (c % 64) ::
      arrayBufferToBase64 rest

/-- Embedding of `base64ToArrayBuffer` (audioUtils.js lines 53-60): base64 character
codes back to the byte list, honouring `=` padding as `atob` does. -/
def base64ToArrayBuffer : List ℕ → List ℕ
  | c1 :: c2 :: c3 :: c4 :: rest =>
      if c3 = 61 then [charToSix c1 * 4 + charToSix c2 / 16]
      else if c4 = 61 then
        [charToSix c1 * 4 + charToSix c2 / 16,
         charToSix c2 % 16 * 16 + charToSix c3 / 4]
      else
        (charToSix c1 * 4 + charToSix c2 / 16) ::
        (charToSix c2 % 16 * 16 + charToSix c3 / 4) ::
        (charToSix c3 % 4 * 64 + charToSix c4) ::
        base64ToArrayBuffer rest
  | _ => []

/-! ## Playback scheduler — `playAudioData` + `ws.onmessage` -/

/-- The scheduling core of `playAudioData` (audioUtils.js lines 77-89):
`playTime = Math.max(audioContext.currentTime, startTime)` and
`duration = sampleCount / 24000` (the buffer is created with sample rate
24000, so `audioBuffer.duration = length / 24000`). Returns
`(playTime, duration)`. -/
def playAudioDataSchedule (currentTime : ℚ) (sampleCount : ℕ) (startTime : ℚ) :
    ℚ × ℚ :=
  (max currentTime startTime, (sampleCount : ℚ) / 24000)

/-- One audio chunk handled by `ws.onmessage` (App.jsx lines 263-269):
the chunk is scheduled at `nextStartTimeRef.current` and the ref is then
set to `playTime + duration`. Returns `(scheduledStart, newNextStartTime)`. -/
def scheduleChunk (nextStart currentTime : ℚ) (sampleCount : ℕ) : ℚ × ℚ :=
  let r := playAudioDataSchedule currentTime sampleCount nextStart
  (r.1, r.1 + r.2)

/-- A sequence of chunks scheduled in arrival order, each with its own
`audioContext.currentTime` observation; returns the list of scheduled
start times and the final `nextStartTime`. -/
def scheduleSeq (nextStart : ℚ) : List (ℚ × ℕ) → List ℚ × ℚ
  | [] => ([], nextStart)
  | (ct, n) :: rest =>
      let r := scheduleChunk nextStart ct n
      let tail := scheduleSeq r.2 rest
      (r.1 :: tail.1, tail.2)

/-! ## Codec lemmas -/

theorem floatTo16BitPCM_length (xs : List ℚ) :
    (floatTo16BitPCM xs).length = 2 * xs.length := by
  induction xs with
  | nil => rfl
  | cons x xs ih =>
    simp only [floatTo16BitPCM, int16Bytes, List.length_append, List.length_cons,
      List.length_nil, ih]
    omega

theorem int16Bytes_lt (v : ℤ) : ∀ b ∈ int16Bytes v, b < 256 := by
  intro b hb
  have h0 : 0 ≤ v % 65536 := Int.emod_nonneg v (by norm_num)
  have h1 : v % 65536 < 65536 := Int.emod_lt_of_pos v (by norm_num)
  simp only [int16Bytes, List.mem_cons, List.not_mem_nil, or_false] at hb
  rcases hb with h | h <;> omega

theorem floatTo16BitPCM_lt (xs : List ℚ) : ∀ b ∈ floatTo16BitPCM xs, b < 256 := by
  induction xs with
  | nil => intro b hb; simp [floatTo16BitPCM] at hb
  | cons x xs ih =>
    intro b hb
    simp only [floatTo16BitPCM, List.mem_append] at hb
    rcases hb with h | h
    · exact int16Bytes_lt _ b h
    · exact ih b h

/-- On non-negative rationals the JavaScript truncation is the floor. -/
theorem jsTrunc_eq_floor (q : ℚ) (h : 0 ≤ q) : jsTrunc q = ⌊q⌋ := by
  rw [jsTrunc, Rat.floor_def]
  exact Int.tdiv_eq_ediv (Rat.num_nonneg.mpr h) (by positivity)

/-- On negative rationals the JavaScript truncation is the ceiling. -/
theorem jsTrunc_eq_ceil (q : ℚ) (h : q < 0) : jsTrunc q = ⌈q⌉ := by
  have h1 : jsTrunc (-q) = ⌊-q⌋ := jsTrunc_eq_floor (-q) (by linarith)
  have h2 : jsTrunc (-q) = -(jsTrunc q) := by
    show ((-q).num).tdiv ((-q).den : ℤ) = -(q.num.tdiv (q.den : ℤ))
    have e1 : (-q).num = -q.num := rfl
    have e2 : ((-q).den : ℤ) = (q.den : ℤ) := rfl
    rw [e1, e2, Int.neg_tdiv]
  have h3 : ⌊-q⌋ = -⌈q⌉ := Int.floor_neg
  omega

/-- Truncation of an integer is that integer. -/
theorem jsTrunc_intCast (i : ℤ) : jsTrunc ((i : ℚ)) = i := by
  rcases le_or_lt 0 ((i : ℚ)) with h | h
  · rw [jsTrunc_eq_floor _ h, Int.floor_intCast]
  · rw [jsTrunc_eq_ceil _ h, Int.ceil_intCast]

theorem clamp16_mem (x : ℚ) : -1 ≤ clamp16 x ∧ clamp16 x ≤ 1 := by
  constructor
  · exact le_max_left _ _
  · exact max_le (by norm_num) (min_le_left _ _)

theorem encode_range (x : ℚ) :
    -32768 ≤ jsTrunc (scaleSample (clamp16 x)) ∧
      jsTrunc (scaleSample (clamp16 x)) ≤ 32767 := by
  obtain ⟨hl, hr⟩ := clamp16_mem x
  set c := clamp16 x with hc
  by_cases hneg : c < 0
  · have hs : scaleSample c = c * 32768 := by simp [scaleSample, hneg]
    have hsl : (-32768 : ℚ) ≤ c * 32768 := by nlinarith
    have hsu : c * 32768 ≤ 0 := by nlinarith
    have hlt : c * 32768 < 0 := by nlinarith
    have ht : jsTrunc (scaleSample c) = ⌈c * 32768⌉ := by
      rw [hs, jsTrunc_eq_ceil _ hlt]
    rw [ht]
    constructor
    · have : ((-32768 : ℤ) : ℚ) ≤ c * 32768 := by push_cast; linarith
      calc (-32768 : ℤ) = ⌈((-32768 : ℤ) : ℚ)⌉ := (Int.ceil_intCast _).symm
        _ ≤ ⌈c * 32768⌉ := Int.ceil_mono this
    · have h0 : ⌈c * 32768⌉ ≤ ⌈(0 : ℚ)⌉ := Int.ceil_mono hsu
      simp only [Int.ceil_zero] at h0
      omega
  · push_neg at hneg
    have hs : scaleSample c = c * 32767 := by simp [scaleSample, not_lt.mpr hneg]
    have hsl : (0 : ℚ) ≤ c * 32767 := by nlinarith
    have hsu : c * 32767 ≤ 32767 := by nlinarith
    have ht : jsTrunc (scaleSample c) = ⌊c * 32767⌋ := by
      rw [hs, jsTrunc_eq_floor _ hsl]
    rw [ht]
    constructor
    · have h0 : ⌊(0 : ℚ)⌋ ≤ ⌊c * 32767⌋ := Int.floor_mono hsl
      simp only [Int.floor_zero] at h0
      omega
    · have h1 : (⌊c * 32767⌋ : ℚ) ≤ 32767 := le_trans (Int.floor_le _) hsu
      exact_mod_cast h1

theorem toInt16_eq (i : ℤ) (h1 : -32768 ≤ i) (h2 : i ≤ 32767) : toInt16 i = i := by
  unfold toInt16
  split_ifs <;> omega

theorem int16OfBytes_range (lo hi : ℕ) (h1 : lo < 256) (h2 : hi < 256) :
    -32768 ≤ int16OfBytes lo hi ∧ int16OfBytes lo hi ≤ 32767 := by
  unfold int16OfBytes
  split_ifs <;> constructor <;> omega

theorem int16Bytes_ofBytes (lo hi : ℕ) (h1 : lo < 256) (h2 : hi < 256) :
    int16Bytes (int16OfBytes lo hi) = [lo, hi] := by
  unfold int16Bytes int16OfBytes
  split_ifs with h <;>
    simp only [List.cons.injEq, and_true] <;>
    constructor <;> omega

/-- Re-encoding the exact quotient `i / 32768` of a negative in-range
int16 recovers `i`. -/
theorem encode_div_32768 (i : ℤ) (h1 : -32768 ≤ i) (hi : i < 0) :
    encodeSampleInt ((i : ℚ) / 32768) = i := by
  have hiq : (i : ℚ) < 0 := by exact_mod_cast hi
  have hx0 : (i : ℚ) / 32768 < 0 := div_neg_of_neg_of_pos hiq (by norm_num)
  have hx1 : (-1 : ℚ) ≤ (i : ℚ) / 32768 := by
    rw [le_div_iff₀ (by norm_num : (0 : ℚ) < 32768)]
    have hcast : ((-32768 : ℤ) : ℚ) ≤ (i : ℚ) := by exact_mod_cast h1
    push_cast at hcast ⊢
    linarith
  have hcl : clamp16 ((i : ℚ) / 32768) = (i : ℚ) / 32768 := by
    unfold clamp16
    rw [min_eq_right (le_of_lt (lt_trans hx0 one_pos)), max_eq_right hx1]
  have hsc : scaleSample ((i : ℚ) / 32768) = (i : ℚ) := by
    rw [scaleSample, if_pos hx0, div_mul_cancel₀ _ (by norm_num : (32768 : ℚ) ≠ 0)]
  rw [encodeSampleInt, hcl, hsc, jsTrunc_intCast i, toInt16_eq i h1 (by omega)]

/-! ## Base64 lemmas -/

theorem charToSix_sixToChar : ∀ n : ℕ, n < 64 → charToSix (sixToChar n) = n := by
  decide

theorem sixToChar_ne_61 : ∀ n : ℕ, n < 64 → sixToChar n ≠ 61 := by
  decide

theorem b64RoundtripAux : ∀ bs : List ℕ, (∀ b ∈ bs, b < 256) →
    base64ToArrayBuffer (arrayBufferToBase64 bs) = bs
  | [], _ => rfl
  | [a], h => by
      have ha : a < 256 := h a (by simp)
      have e1 : charToSix (sixToChar (a / 4)) = a / 4 :=
        charToSix_sixToChar _ (by omega)
      have e2 : charToSix (sixToChar (a % 4 * 16)) = a % 4 * 16 :=
        charToSix_sixToChar _ (by omega)
      simp only [arrayBufferToBase64, base64ToArrayBuffer, e1, e2, if_true]
      simp only [List.cons.injEq, and_true]
      omega
  | [a, b], h => by
      have ha : a < 256 := h a (by simp)
      have hb : b < 256 := h b (by simp)
      have hne : sixToChar (b % 16 * 4) ≠ 61 := sixToChar_ne_61 _ (by omega)
      have e1 : charToSix (sixToChar (a / 4)) = a / 4 :=
        charToSix_sixToChar _ (by omega)
      have e2 : charToSix (sixToChar (a % 4 * 16 + b / 16)) = a % 4 * 16 + b / 16 :=
        charToSix_sixToChar _ (by omega)
      have e3 : charToSix (sixToChar (b % 16 * 4)) = b % 16 * 4 :=
        charToSix_sixToChar _ (by omega)
      simp only [arrayBufferToBase64, base64ToArrayBuffer, e1, e2, e3,
        if_neg hne, if_true]
      simp only [List.cons.injEq, and_true]
      omega
  | a :: b :: c :: rest, h => by
      have ha : a < 256 := h a (by simp)
      have hb : b < 256 := h b (by simp)
      have hc : c < 256 := h c (by simp)
      have ih := b64RoundtripAux rest (fun x hx => h x (by simp [hx]))
      have hne3 : sixToChar (b % 16 * 4 + c / 64) ≠ 61 :=
        sixToChar_ne_61 _ (by omega)
      have hne4 : sixToChar (c % 64) ≠ 61 := sixToChar_ne_61 _ (by omega)
      have e1 : charToSix (sixToChar (a / 4)) = a / 4 :=
        charToSix_sixToChar _ (by omega)
      have e2 : charToSix (sixToChar (a % 4 * 16 + b / 16)) = a % 4 * 16 + b / 16 :=
        charToSix_sixToChar _ (by omega)
      have e3 : charToSix (sixToChar (b % 16 * 4 + c / 64)) = b % 16 * 4 + c / 64 :=
        charToSix_sixToChar _ (by omega)
      have e4 : charToSix (sixToChar (c % 64)) = c % 64 :=
        charToSix_sixToChar _ (by omega)
      simp only [arrayBufferToBase64, base64ToArrayBuffer, e1, e2, e3, e4,
        if_neg hne3, if_neg hne4, ih]
      simp only [List.cons.injEq, and_true]
      omega

/-! ## Rounding lemmas -/

theorem two_zpow_pos (e : ℤ) : (0 : ℚ) < 2 ^ e := zpow_pos (by norm_num) e

theorem two_zpow_mono {m n : ℤ} (h : m ≤ n) : (2 : ℚ) ^ m ≤ 2 ^ n :=
  (zpow_le_zpow_iff_right₀ (by norm_num)).mpr h

theorem rne_le (q : ℚ) : (rne q : ℚ) ≤ q + 1 / 2 := by
  have hf : (⌊q⌋ : ℚ) ≤ q := Int.floor_le q
  have hc : q < ⌊q⌋ + 1 := Int.lt_floor_add_one q
  unfold rne
  split_ifs <;> push_cast <;> linarith

theorem le_rne (q : ℚ) : q - 1 / 2 ≤ (rne q : ℚ) := by
  have hf : (⌊q⌋ : ℚ) ≤ q := Int.floor_le q
  have hc : q < ⌊q⌋ + 1 := Int.lt_floor_add_one q
  unfold rne
  split_ifs <;> push_cast <;> linarith

theorem rne_intCast (n : ℤ) : rne ((n : ℚ)) = n := by
  unfold rne
  rw [Int.floor_intCast]
  norm_num

theorem rne_eq_of_lt (q : ℚ) (n : ℤ) (h1 : (n : ℚ) ≤ q) (h2 : q < n + 1 / 2) :
    rne q = n := by
  have hf : ⌊q⌋ = n := by
    rw [Int.floor_eq_iff]
    refine ⟨h1, by linarith⟩
  unfold rne
  rw [hf, if_pos (by linarith)]

theorem rne_eq_of_gt (q : ℚ) (n : ℤ) (h1 : (n : ℚ) - 1 / 2 < q) (h2 : q ≤ n) :
    rne q = n := by
  rcases eq_or_lt_of_le h2 with he | hlt
  · rw [he]
    exact rne_intCast n
  · have hf : ⌊q⌋ = n - 1 := by
      rw [Int.floor_eq_iff]
      constructor
      · push_cast
        linarith
      · push_cast
        linarith
    unfold rne
    rw [hf, if_neg (by push_cast; linarith), if_pos (by push_cast; linarith)]
    omega

theorem log2floor_spec (q : ℚ) (hq : 0 < q) :
    (2 : ℚ) ^ log2floor q ≤ q ∧ q < 2 ^ (log2floor q + 1) := by
  have hnum : 0 < q.num := Rat.num_pos.mpr hq
  have hden : 0 < q.den := q.den_pos
  have hN : ((q.num.toNat : ℚ)) = ((q.num : ℚ)) := by
    exact_mod_cast congrArg (fun z : ℤ => (z : ℚ)) (Int.toNat_of_nonneg (le_of_lt hnum))
  have hq_eq : ((q.num.toNat : ℚ)) / ((q.den : ℚ)) = q := by
    rw [hN]
    exact Rat.num_div_den q
  set a := Nat.log2 q.num.toNat with ha
  set b := Nat.log2 q.den with hb
  have hnum0 : q.num.toNat ≠ 0 := by omega
  have ha1 : 2 ^ a ≤ q.num.toNat := Nat.log2_self_le hnum0
  have ha2 : q.num.toNat < 2 ^ (a + 1) := Nat.lt_log2_self
  have hb1 : 2 ^ b ≤ q.den := Nat.log2_self_le (by omega)
  have hb2 : q.den < 2 ^ (b + 1) := Nat.lt_log2_self
  have hNq : (0 : ℚ) < ((q.num.toNat : ℚ)) := by
    have : 0 < q.num.toNat := by omega
    exact_mod_cast this
  have hDq : (0 : ℚ) < ((q.den : ℚ)) := by exact_mod_cast hden
  have ha1q : (2 : ℚ) ^ ((a : ℤ)) ≤ ((q.num.toNat : ℚ)) := by
    rw [zpow_natCast]
    exact_mod_cast ha1
  have ha2q : ((q.num.toNat : ℚ)) < (2 : ℚ) ^ ((a : ℤ) + 1) := by
    rw [show ((a : ℤ) + 1) = (((a + 1 : ℕ)) : ℤ) by push_cast; ring, zpow_natCast]
    exact_mod_cast ha2
  have hb1q : (2 : ℚ) ^ ((b : ℤ)) ≤ ((q.den : ℚ)) := by
    rw [zpow_natCast]
    exact_mod_cast hb1
  have hb2q : ((q.den : ℚ)) < (2 : ℚ) ^ ((b : ℤ) + 1) := by
    rw [show ((b : ℤ) + 1) = (((b + 1 : ℕ)) : ℤ) by push_cast; ring, zpow_natCast]
    exact_mod_cast hb2
  have hA : q < (2 : ℚ) ^ ((a : ℤ) - (b : ℤ) + 1) := by
    rw [← hq_eq, show (a : ℤ) - (b : ℤ) + 1 = ((a : ℤ) + 1) - (b : ℤ) by ring,
      zpow_sub₀ (by norm_num : (2 : ℚ) ≠ 0)]
    calc ((q.num.toNat : ℚ)) / ((q.den : ℚ))
        ≤ ((q.num.toNat : ℚ)) / (2 : ℚ) ^ ((b : ℤ)) := by gcongr
      _ < (2 : ℚ) ^ ((a : ℤ) + 1) / (2 : ℚ) ^ ((b : ℤ)) := by gcongr
  have hB : (2 : ℚ) ^ ((a : ℤ) - (b : ℤ) - 1) < q := by
    rw [← hq_eq, show (a : ℤ) - (b : ℤ) - 1 = (a : ℤ) - ((b : ℤ) + 1) by ring,
      zpow_sub₀ (by norm_num : (2 : ℚ) ≠ 0)]
    calc (2 : ℚ) ^ ((a : ℤ)) / (2 : ℚ) ^ ((b : ℤ) + 1)
        < (2 : ℚ) ^ ((a : ℤ)) / ((q.den : ℚ)) := by gcongr
      _ ≤ ((q.num.toNat : ℚ)) / ((q.den : ℚ)) := by gcongr
  have haux : log2floorAux q = (a : ℤ) - (b : ℤ) := by
    unfold log2floorAux
    rw [ha, hb]
  unfold log2floor
  rw [haux]
  split_ifs with h
  · exact ⟨h, hA⟩
  · refine ⟨le_of_lt hB, ?_⟩
    rw [show (a : ℤ) - (b : ℤ) - 1 + 1 = (a : ℤ) - (b : ℤ) by ring]
    exact lt_of_not_le h

theorem log2floor_unique (q : ℚ) (e : ℤ) (hq : 0 < q)
    (h1 : (2 : ℚ) ^ e ≤ q) (h2 : q < 2 ^ (e + 1)) : log2floor q = e := by
  obtain ⟨s1, s2⟩ := log2floor_spec q hq
  by_contra hne
  rcases lt_or_gt_of_ne hne with hlt | hgt
  · have hle : (2 : ℚ) ^ (log2floor q + 1) ≤ 2 ^ e := two_zpow_mono (by omega)
    linarith
  · have hle : (2 : ℚ) ^ (e + 1) ≤ 2 ^ (log2floor q) := two_zpow_mono (by omega)
    linarith

theorem log2floor_le_zero (q : ℚ) (hq : 0 < q) (hq1 : q ≤ 1) : log2floor q ≤ 0 := by
  obtain ⟨s1, _⟩ := log2floor_spec q hq
  by_contra h
  push_neg at h
  have h2 : (2 : ℚ) ^ (1 : ℤ) ≤ (2 : ℚ) ^ (log2floor q) := two_zpow_mono (by omega)
  rw [zpow_one] at h2
  linarith

theorem roundPos_err (p : ℕ) (q : ℚ) :
    |roundPos p q - q| ≤ (2 : ℚ) ^ (log2floor q - (p : ℤ)) := by
  have h2ne : (2 : ℚ) ≠ 0 := by norm_num
  unfold roundPos
  set e := log2floor q with hE
  set y := q * (2 : ℚ) ^ ((p : ℤ) - 1 - e) with hY
  have hq_eq : y * (2 : ℚ) ^ (e - (p : ℤ) + 1) = q := by
    rw [hY, mul_assoc, ← zpow_add₀ h2ne,
      show ((p : ℤ) - 1 - e) + (e - (p : ℤ) + 1) = 0 by ring, zpow_zero, mul_one]
  have key : (rne y : ℚ) * (2 : ℚ) ^ (e - (p : ℤ) + 1) - q =
      ((rne y : ℚ) - y) * (2 : ℚ) ^ (e - (p : ℤ) + 1) := by
    rw [← hq_eq]
    ring
  rw [key, abs_mul, abs_of_pos (two_zpow_pos _)]
  have habs : |(rne y : ℚ) - y| ≤ 1 / 2 := by
    rw [abs_le]
    exact ⟨by linarith [le_rne y], by linarith [rne_le y]⟩
  calc |(rne y : ℚ) - y| * (2 : ℚ) ^ (e - (p : ℤ) + 1)
      ≤ 1 / 2 * (2 : ℚ) ^ (e - (p : ℤ) + 1) :=
        mul_le_mul_of_nonneg_right habs (le_of_lt (two_zpow_pos _))
    _ = (2 : ℚ) ^ (e - (p : ℤ)) := by
        rw [show e - (p : ℤ) + 1 = (e - (p : ℤ)) + 1 by ring, zpow_add₀ h2ne, zpow_one]
        ring

theorem roundPos_pos (p : ℕ) (hp : 1 ≤ p) (q : ℚ) (hq : 0 < q) :
    0 < roundPos p q := by
  obtain ⟨s1, _⟩ := log2floor_spec q hq
  unfold roundPos
  set e := log2floor q with hE
  set y := q * (2 : ℚ) ^ ((p : ℤ) - 1 - e) with hY
  have hy1 : (1 : ℚ) ≤ y := by
    calc (1 : ℚ) = (2 : ℚ) ^ (0 : ℤ) := (zpow_zero 2).symm
      _ ≤ (2 : ℚ) ^ ((p : ℤ) - 1) := two_zpow_mono (by omega)
      _ = (2 : ℚ) ^ e * (2 : ℚ) ^ ((p : ℤ) - 1 - e) := by
          rw [← zpow_add₀ (by norm_num : (2 : ℚ) ≠ 0),
            show e + ((p : ℤ) - 1 - e) = (p : ℤ) - 1 by ring]
      _ ≤ y := by
          rw [hY]
          exact mul_le_mul_of_nonneg_right s1 (le_of_lt (two_zpow_pos _))
  have hr := le_rne y
  apply mul_pos _ (two_zpow_pos _)
  linarith

theorem roundPos_le_one (p : ℕ) (hp : 1 ≤ p) (q : ℚ) (hq : 0 < q) (hq1 : q ≤ 1) :
    roundPos p q ≤ 1 := by
  have h2ne : (2 : ℚ) ≠ 0 := by norm_num
  obtain ⟨s1, s2⟩ := log2floor_spec q hq
  have he0 : log2floor q ≤ 0 := log2floor_le_zero q hq hq1
  rcases eq_or_lt_of_le he0 with he | he
  · -- the exponent is 0, so q = 1 and the rounding is exact
    have hq_one : q = 1 := by
      rw [he, zpow_zero] at s1
      linarith
    subst hq_one
    have hlog : log2floor (1 : ℚ) = 0 := by
      apply log2floor_unique _ _ (by norm_num)
      · norm_num
      · norm_num
    have hx : (1 : ℚ) * (2 : ℚ) ^ ((p : ℤ) - 1 - log2floor (1 : ℚ)) =
        ((2 ^ (p - 1) : ℤ) : ℚ) := by
      rw [hlog, one_mul,
        show (p : ℤ) - 1 - 0 = (((p - 1 : ℕ)) : ℤ) by omega, zpow_natCast]
      push_cast
      ring
    unfold roundPos
    rw [hx, rne_intCast, ← hx, one_mul, ← zpow_add₀ h2ne, hlog,
      show ((p : ℤ) - 1 - 0) + (0 - (p : ℤ) + 1) = 0 by ring, zpow_zero]
  · -- the exponent is at most -1
    unfold roundPos
    set e := log2floor q with hE
    set y := q * (2 : ℚ) ^ ((p : ℤ) - 1 - e) with hY
    have hy2 : y < (2 : ℚ) ^ ((p : ℤ)) := by
      calc y < (2 : ℚ) ^ (e + 1) * (2 : ℚ) ^ ((p : ℤ) - 1 - e) := by
            rw [hY]
            exact mul_lt_mul_of_pos_right s2 (two_zpow_pos _)
        _ = (2 : ℚ) ^ ((p : ℤ)) := by
            rw [← zpow_add₀ h2ne, show (e + 1) + ((p : ℤ) - 1 - e) = (p : ℤ) by ring]
    have hcast : (2 : ℚ) ^ ((p : ℤ)) = ((2 ^ p : ℤ) : ℚ) := by
      rw [zpow_natCast]
      push_cast
      ring
    have hrle : rne y ≤ 2 ^ p := by
      have h1 := rne_le y
      have h2q : (rne y : ℚ) < ((2 ^ p + 1 : ℤ) : ℚ) := by
        push_cast
        rw [hcast] at hy2
        push_cast at hy2
        linarith
      have hlt2 : rne y < 2 ^ p + 1 := by exact_mod_cast h2q
      omega
    calc (rne y : ℚ) * (2 : ℚ) ^ (e - (p : ℤ) + 1)
        ≤ ((2 ^ p : ℤ) : ℚ) * (2 : ℚ) ^ (e - (p : ℤ) + 1) := by
          apply mul_le_mul_of_nonneg_right _ (le_of_lt (two_zpow_pos _))
          exact_mod_cast hrle
      _ = (2 : ℚ) ^ (e + 1) := by
          rw [← hcast, ← zpow_add₀ h2ne,
            show (p : ℤ) + (e - (p : ℤ) + 1) = e + 1 by ring]
      _ ≤ (2 : ℚ) ^ (0 : ℤ) := two_zpow_mono (by omega)
      _ = 1 := zpow_zero 2

theorem roundPos_exact (p : ℕ) (q : ℚ) (n : ℤ)
    (h : q * (2 : ℚ) ^ ((p : ℤ) - 1 - log2floor q) = (n : ℚ)) :
    roundPos p q = q := by
  unfold roundPos
  rw [h, rne_intCast, ← h, mul_assoc, ← zpow_add₀ (by norm_num : (2 : ℚ) ≠ 0),
    show ((p : ℤ) - 1 - log2floor q) + (log2floor q - (p : ℤ) + 1) = 0 by ring,
    zpow_zero, mul_one]

theorem roundFloat_pos_eq (p : ℕ) (q : ℚ) (hq : 0 < q) :
    roundFloat p q = roundPos p q := by
  unfold roundFloat
  rw [if_neg (ne_of_gt hq), if_pos hq]

theorem roundFloat_neg_eq (p : ℕ) (q : ℚ) (hq : q < 0) :
    roundFloat p q = -roundPos p (-q) := by
  unfold roundFloat
  rw [if_neg (ne_of_lt hq), if_neg (not_lt.mpr (le_of_lt hq))]

theorem roundFloat_zero (p : ℕ) : roundFloat p 0 = 0 := by
  unfold roundFloat
  rw [if_pos rfl]

/-- Rounding a positive value of magnitude at most 1 at `p` bits keeps it
positive, keeps it at most 1, and moves it by less than `2 ^ (-p)`. -/
theorem roundFloat_unit (p : ℕ) (hp : 1 ≤ p) (q : ℚ) (hq : 0 < q) (hq1 : q ≤ 1) :
    0 < roundFloat p q ∧ roundFloat p q ≤ 1 ∧
      |roundFloat p q - q| ≤ (2 : ℚ) ^ (-(p : ℤ)) := by
  rw [roundFloat_pos_eq p q hq]
  refine ⟨roundPos_pos p hp q hq, roundPos_le_one p hp q hq hq1, ?_⟩
  calc |roundPos p q - q| ≤ (2 : ℚ) ^ (log2floor q - (p : ℤ)) := roundPos_err p q
    _ ≤ (2 : ℚ) ^ (-(p : ℤ)) :=
        two_zpow_mono (by have := log2floor_le_zero q hq hq1; omega)

/-! ## PCM16 decode and re-encode -/

/-- The decode of a negative in-range int16 is exact: both the double
division by 32768 and the float32 store represent `i / 32768` exactly
(at most 16 significant bits, power-of-two denominator). -/
theorem int16ToFloat_neg_exact (v : ℤ) (h1 : -32768 ≤ v) (h2 : v < 0) :
    int16ToFloat v = (v : ℚ) / 32768 := by
  set u : ℤ := -v with hu
  have hu1 : 1 ≤ u := by omega
  have hu2 : u ≤ 32768 := by omega
  have hx : (v : ℚ) / 32768 = -((u : ℚ) / 32768) := by
    rw [hu]
    push_cast
    ring
  have hx0 : 0 < (u : ℚ) / 32768 := by
    apply div_pos _ (by norm_num)
    exact_mod_cast hu1
  have hx1 : (u : ℚ) / 32768 ≤ 1 := by
    rw [div_le_one (by norm_num : (0 : ℚ) < 32768)]
    exact_mod_cast hu2
  have he0 : log2floor ((u : ℚ) / 32768) ≤ 0 := log2floor_le_zero _ hx0 hx1
  have hexact : ∀ p : ℕ, 16 ≤ p → roundPos p ((u : ℚ) / 32768) = (u : ℚ) / 32768 := by
    intro p hp
    set e := log2floor ((u : ℚ) / 32768) with hE
    have hnn : (0 : ℤ) ≤ (p : ℤ) - 16 - e := by omega
    apply roundPos_exact p _ (u * 2 ^ ((p : ℤ) - 16 - e).toNat)
    rw [← hE]
    have h32768 : (32768 : ℚ) = (2 : ℚ) ^ (15 : ℤ) := by norm_num
    rw [h32768, div_mul_eq_mul_div, mul_div_assoc,
      ← zpow_sub₀ (by norm_num : (2 : ℚ) ≠ 0) _ (15 : ℤ),
      show (p : ℤ) - 1 - e - 15 = (p : ℤ) - 16 - e by ring]
    push_cast
    rw [← zpow_natCast (2 : ℚ)]
    congr 1
    congr 1
    omega
  have hstep : ∀ p : ℕ, 16 ≤ p →
      roundFloat p ((v : ℚ) / 32768) = (v : ℚ) / 32768 := by
    intro p hp
    rw [hx, roundFloat_neg_eq p _ (by linarith), neg_neg, hexact p hp]
  unfold int16ToFloat
  rw [if_pos h2, hstep 53 (by norm_num), hstep 24 (by norm_num)]

/-- A negative in-range int16 survives the decode/re-encode round trip
exactly. -/
theorem reencode_neg (v : ℤ) (h1 : -32768 ≤ v) (h2 : v < 0) :
    encodeSampleInt (int16ToFloat v) = v := by
  rw [int16ToFloat_neg_exact v h1 h2]
  exact encode_div_32768 v h1 h2

/-- A non-negative in-range int16 comes back from the decode/re-encode
round trip as itself or one less: the float32 value stored for
`v / 32767` is within `2^-24 + 2^-53` of the exact quotient, so the
re-encoded product lies within one half of `v` and truncation toward
zero yields `v` or `v - 1`. -/
theorem reencode_nonneg (v : ℤ) (h1 : 0 ≤ v) (h2 : v ≤ 32767) :
    encodeSampleInt (int16ToFloat v) = v ∨
      encodeSampleInt (int16ToFloat v) = v - 1 := by
  rcases eq_or_lt_of_le h1 with h0 | hpos
  · -- v = 0 decodes to 0 and re-encodes to 0
    left
    rw [← h0]
    have hz : int16ToFloat 0 = 0 := by
      unfold int16ToFloat
      rw [if_neg (by norm_num), show ((0 : ℤ) : ℚ) / 32767 = 0 by norm_num,
        roundFloat_zero, roundFloat_zero]
    rw [hz]
    have hcl : clamp16 0 = 0 := by
      unfold clamp16
      rw [min_eq_right (by norm_num), max_eq_right (by norm_num)]
    rw [encodeSampleInt, hcl, scaleSample, if_neg (by norm_num),
      show (0 : ℚ) * 32767 = ((0 : ℤ) : ℚ) by norm_num, jsTrunc_intCast]
    decide
  · -- v ≥ 1
    set x : ℚ := (v : ℚ) / 32767 with hX
    have hx0 : 0 < x := by
      apply div_pos _ (by norm_num)
      exact_mod_cast hpos
    have hx1 : x ≤ 1 := by
      rw [hX, div_le_one (by norm_num : (0 : ℚ) < 32767)]
      exact_mod_cast h2
    obtain ⟨hd0, hd1, hderr⟩ := roundFloat_unit 53 (by norm_num) x hx0 hx1
    obtain ⟨hf0, hf1, hferr⟩ :=
      roundFloat_unit 24 (by norm_num) (roundFloat 53 x) hd0 hd1
    set fl : ℚ := roundFloat 24 (roundFloat 53 x) with hFL
    have hfl : int16ToFloat v = fl := by
      unfold int16ToFloat
      rw [if_neg (by omega), ← hX, ← hFL]
    have herr : |fl - x| ≤ (2 : ℚ) ^ (-(24 : ℤ)) + (2 : ℚ) ^ (-(53 : ℤ)) := by
      have htri : |fl - x| ≤ |fl - roundFloat 53 x| + |roundFloat 53 x - x| :=
        abs_sub_le fl (roundFloat 53 x) x
      have h24 : (-(((24 : ℕ)) : ℤ)) = (-(24 : ℤ)) := by norm_num
      have h53 : (-(((53 : ℕ)) : ℤ)) = (-(53 : ℤ)) := by norm_num
      rw [h24] at hferr
      rw [h53] at hderr
      calc |fl - x| ≤ |fl - roundFloat 53 x| + |roundFloat 53 x - x| := htri
        _ ≤ (2 : ℚ) ^ (-(24 : ℤ)) + (2 : ℚ) ^ (-(53 : ℤ)) := by
            apply add_le_add hferr hderr
    have hxv : x * 32767 = (v : ℚ) := by
      rw [hX, div_mul_cancel₀ _ (by norm_num : (32767 : ℚ) ≠ 0)]
    have hyerr : |fl * 32767 - (v : ℚ)| < 1 / 2 := by
      have hmul : fl * 32767 - (v : ℚ) = (fl - x) * 32767 := by
        rw [← hxv]
        ring
      rw [hmul, abs_mul, abs_of_pos (by norm_num : (0 : ℚ) < 32767)]
      calc |fl - x| * 32767
          ≤ ((2 : ℚ) ^ (-(24 : ℤ)) + (2 : ℚ) ^ (-(53 : ℤ))) * 32767 := by
            apply mul_le_mul_of_nonneg_right herr (by norm_num)
        _ < 1 / 2 := by norm_num
    have hcl : clamp16 fl = fl := by
      unfold clamp16
      rw [min_eq_right hf1, max_eq_right (by linarith)]
    have hsc : scaleSample fl = fl * 32767 := by
      rw [scaleSample, if_neg (not_lt.mpr (le_of_lt hf0))]
    have habs := abs_lt.mp hyerr
    have hy0 : 0 ≤ fl * 32767 := by positivity
    have hjt : jsTrunc (fl * 32767) = ⌊fl * 32767⌋ := jsTrunc_eq_floor _ hy0
    rcases le_or_lt (v : ℚ) (fl * 32767) with hge | hlt
    · left
      have hfloor : ⌊fl * 32767⌋ = v := by
        rw [Int.floor_eq_iff]
        refine ⟨hge, by linarith⟩
      rw [encodeSampleInt, hfl, hcl, hsc, hjt, hfloor, toInt16_eq v (by omega) h2]
    · right
      have hfloor : ⌊fl * 32767⌋ = v - 1 := by
        rw [Int.floor_eq_iff]
        constructor
        · push_cast
          linarith
        · push_cast
          linarith
      rw [encodeSampleInt, hfl, hcl, hsc, hjt, hfloor,
        toInt16_eq (v - 1) (by omega) (by omega)]

/-- All samples of a little-endian PCM16 byte buffer are negative: every
high byte has its sign bit set. -/
def allSamplesNeg : List ℕ → Prop
  | _ :: hi :: rest => 128 ≤ hi ∧ allSamplesNeg rest
  | _ => True

theorem pcmNegRoundtripAux : ∀ bs : List ℕ, (∀ b ∈ bs, b < 256) →
    bs.length % 2 = 0 → allSamplesNeg bs →
    floatTo16BitPCM (pcm16ToFloats bs) = bs
  | [], _, _, _ => rfl
  | [b], _, hlen, _ => by simp at hlen
  | lo :: hi :: rest, h, hlen, hneg => by
      have h1 : lo < 256 := h lo (by simp)
      have h2 : hi < 256 := h hi (by simp)
      obtain ⟨hn, hrest⟩ := hneg
      obtain ⟨r1, _⟩ := int16OfBytes_range lo hi h1 h2
      have hv : int16OfBytes lo hi < 0 := by
        unfold int16OfBytes
        rw [if_neg (by omega)]
        omega
      have ih := pcmNegRoundtripAux rest (fun b hb => h b (by simp [hb]))
        (by simp only [List.length_cons] at hlen ⊢; omega) hrest
      simp only [pcm16ToFloats, floatTo16BitPCM]
      rw [reencode_neg _ r1 hv, int16Bytes_ofBytes lo hi h1 h2, ih]
      rfl

/-! ## Claim theorems: codec and scheduler -/

/-- C1: the playback scheduler computes each start time as
`max(currentTimelineTime, nextStartTime)`, each duration as
`sampleCount / 24000`, and updates `nextStartTime` to `start + duration`;
scheduling three buffers of 24000, 12000 and 48000 samples (durations
1.0 s, 0.5 s, 2.0 s) with `currentTimelineTime = 0` throughout yields
start times `0, 1.0, 1.5` and final `nextStartTime = 3.5`. -/
theorem playbackScheduler_correct :
    (∀ nextStart currentTime : ℚ, ∀ n : ℕ,
      scheduleChunk nextStart currentTime n =
        (max currentTime nextStart, max currentTime nextStart + (n : ℚ) / 24000)) ∧
    scheduleSeq 0 [(0, 24000), (0, 12000), (0, 48000)] =
      ([0, 1, 3 / 2], 7 / 2) := by
  constructor
  · intro ns ct n
    rfl
  · norm_num [scheduleSeq, scheduleChunk, playAudioDataSchedule]

/-- C2 (amended): `floatTo16BitPCM` clamps each sample to `[-1, 1]`,
scales negative values by 32768 and non-negative values by 32767,
**truncates the result toward zero** (the `DataView.setInt16` integer
conversion — not round-to-nearest), and writes it little-endian with no
16-bit wraparound; the output byte length is exactly `2 ×` the sample
count, and the encoder is a total function (deterministic, no failure
mode). -/
theorem floatTo16BitPCM_correct (xs : List ℚ) :
    (floatTo16BitPCM xs).length = 2 * xs.length ∧
    ∀ x ∈ xs, ∃ lo hi, lo < 256 ∧ hi < 256 ∧
      int16Bytes (encodeSampleInt x) = [lo, hi] ∧
      int16OfBytes lo hi = jsTrunc (scaleSample (clamp16 x)) := by
  refine ⟨floatTo16BitPCM_length xs, ?_⟩
  intro x _
  obtain ⟨hlo, hhi⟩ := encode_range x
  have he : encodeSampleInt x = jsTrunc (scaleSample (clamp16 x)) := by
    rw [encodeSampleInt, toInt16_eq _ hlo hhi]
  set v := jsTrunc (scaleSample (clamp16 x)) with hv
  have e0 : 0 ≤ v % 65536 := Int.emod_nonneg v (by norm_num)
  have e1 : v % 65536 < 65536 := Int.emod_lt_of_pos v (by norm_num)
  refine ⟨(v % 65536).toNat % 256, (v % 65536).toNat / 256, by omega, by omega,
    by rw [he]; rfl, ?_⟩
  unfold int16OfBytes
  split_ifs <;> omega

/-- Witness for the amended C2 theorem at the concrete input `[1/2]`. -/
theorem floatTo16BitPCM_correct_witness :
    (floatTo16BitPCM [(1 : ℚ) / 2]).length = 2 * 1 ∧
    (∃ lo hi, lo < 256 ∧ hi < 256 ∧
      int16Bytes (encodeSampleInt ((1 : ℚ) / 2)) = [lo, hi] ∧
      int16OfBytes lo hi = jsTrunc (scaleSample (clamp16 ((1 : ℚ) / 2)))) := by
  have h := floatTo16BitPCM_correct [(1 : ℚ) / 2]
  exact ⟨h.1, h.2 ((1 : ℚ) / 2) (by simp)⟩

/-- Rounding to the nearest 16-bit signed integer, as the claim states
it (nearest integer, half rounded up; the counterexample input is not a
tie, so any nearest-rounding convention agrees). Stated from the words
of the spec for comparison against the source encoder. -/
def roundNearestEncode (x : ℚ) : ℤ := ⌊scaleSample (clamp16 x) + 1 / 2⌋

/-- C2 counterexample: on the sample `1/32768` (an exact float32 value)
the source encoder stores `0` — it truncates `32767/32768` toward zero —
while rounding to the nearest 16-bit integer would store `1`. -/
theorem floatTo16BitPCM_not_rounded :
    encodeSampleInt ((1 : ℚ) / 32768) = 0 ∧
      roundNearestEncode ((1 : ℚ) / 32768) = 1 := by
  have hcl : clamp16 ((1 : ℚ) / 32768) = 1 / 32768 := by
    unfold clamp16
    rw [min_eq_right (by norm_num), max_eq_right (by norm_num)]
  have hsc : scaleSample ((1 : ℚ) / 32768) = 32767 / 32768 := by
    rw [scaleSample, if_neg (by norm_num)]
    norm_num
  constructor
  · have ht : jsTrunc ((32767 : ℚ) / 32768) = 0 := by
      rw [jsTrunc_eq_floor _ (by norm_num), Int.floor_eq_iff]
      constructor <;> norm_num
    rw [encodeSampleInt, hcl, hsc, ht]
    decide
  · rw [roundNearestEncode, hcl, hsc]
    have hq : (32767 : ℚ) / 32768 + 1 / 2 = 49151 / 32768 := by norm_num
    rw [hq, Int.floor_eq_iff]
    constructor <;> norm_num

/-- C3: the round trip `base64ToArrayBuffer (arrayBufferToBase64 bs) = bs` holds for every
byte buffer, including the empty buffer and buffers whose length is not
a multiple of 3 (odd lengths included). -/
theorem base64_roundtrip (bs : List ℕ) (h : ∀ b ∈ bs, b < 256) :
    base64ToArrayBuffer (arrayBufferToBase64 bs) = bs :=
  b64RoundtripAux bs h

/-- Witness for C3 on a concrete buffer of odd length. -/
theorem base64_roundtrip_witness :
    base64ToArrayBuffer (arrayBufferToBase64 [0, 255, 7, 1, 128]) =
      [0, 255, 7, 1, 128] :=
  base64_roundtrip [0, 255, 7, 1, 128] (by decide)

/-- C4 (amended): the decode/re-encode round trip of an in-range int16
sample is exact for negative samples (whose quotient by 32768 both
floating-point formats represent exactly) but only within one downward
quantization step for non-negative samples: the float32 stored for
`v / 32767` can fall below the exact quotient, and truncation toward
zero then re-encodes `v` as `v - 1`. Consequently a PCM16 buffer is
reproduced byte-for-byte whenever all its samples are negative, but not
in general. -/
theorem pcm16_reencode_quantized :
    (∀ v : ℤ, -32768 ≤ v → v ≤ 32767 →
      (v < 0 → encodeSampleInt (int16ToFloat v) = v) ∧
      (0 ≤ v → encodeSampleInt (int16ToFloat v) = v ∨
        encodeSampleInt (int16ToFloat v) = v - 1)) ∧
    (∀ bs : List ℕ, (∀ b ∈ bs, b < 256) → bs.length % 2 = 0 →
      allSamplesNeg bs → floatTo16BitPCM (pcm16ToFloats bs) = bs) :=
  ⟨fun v h1 h2 => ⟨fun hneg => reencode_neg v h1 hneg,
    fun hpos => reencode_nonneg v hpos h2⟩,
   pcmNegRoundtripAux⟩

/-- Witness for the amended C4 theorem: sample `-1` round-trips exactly,
and so does the all-negative two-byte buffer holding sample `-32768`. -/
theorem pcm16_reencode_quantized_witness :
    encodeSampleInt (int16ToFloat (-1)) = -1 ∧
    floatTo16BitPCM (pcm16ToFloats [0, 128]) = [0, 128] :=
  ⟨(pcm16_reencode_quantized.1 (-1) (by norm_num) (by norm_num)).1 (by norm_num),
   pcm16_reencode_quantized.2 [0, 128] (by decide) (by decide)
     ⟨by norm_num, trivial⟩⟩

/-- The decode of the int16 sample 1: the double `1 / 32767` rounds to
`4503737070518400 / 2^67`, and the float32 store rounds that to
`8388864 / 2^38 = 32769 / 2^30` — strictly below the exact quotient
`1 / 32767`. -/
theorem int16ToFloat_one : int16ToFloat 1 = 32769 / 1073741824 := by
  have he1 : log2floor ((1 : ℚ) / 32767) = -15 := by
    apply log2floor_unique _ _ (by norm_num)
    · norm_num
    · norm_num
  have hr53 : roundPos 53 ((1 : ℚ) / 32767) =
      4503737070518400 / 147573952589676412928 := by
    unfold roundPos
    rw [he1]
    rw [show ((53 : ℕ) : ℤ) - 1 - (-15) = (67 : ℤ) by norm_num,
      show (-15 : ℤ) - ((53 : ℕ) : ℤ) + 1 = (-67 : ℤ) by norm_num]
    rw [show (1 : ℚ) / 32767 * (2 : ℚ) ^ (67 : ℤ) =
      147573952589676412928 / 32767 by norm_num]
    rw [show rne ((147573952589676412928 : ℚ) / 32767) = 4503737070518400 from
      rne_eq_of_lt _ _ (by norm_num) (by norm_num)]
    norm_num
  have he2 : log2floor ((4503737070518400 : ℚ) / 147573952589676412928) = -15 := by
    apply log2floor_unique _ _ (by norm_num)
    · norm_num
    · norm_num
  have hr24 : roundPos 24 ((4503737070518400 : ℚ) / 147573952589676412928) =
      32769 / 1073741824 := by
    unfold roundPos
    rw [he2]
    rw [show ((24 : ℕ) : ℤ) - 1 - (-15) = (38 : ℤ) by norm_num,
      show (-15 : ℤ) - ((24 : ℕ) : ℤ) + 1 = (-38 : ℤ) by norm_num]
    rw [show (4503737070518400 : ℚ) / 147573952589676412928 * (2 : ℚ) ^ (38 : ℤ) =
      35185445863425 / 4194304 by norm_num]
    rw [show rne ((35185445863425 : ℚ) / 4194304) = 8388864 from
      rne_eq_of_lt _ _ (by norm_num) (by norm_num)]
    norm_num
  unfold int16ToFloat
  rw [if_neg (by norm_num), show ((1 : ℤ) : ℚ) / 32767 = 1 / 32767 by norm_num]
  rw [show roundFloat 53 ((1 : ℚ) / 32767) =
      4503737070518400 / 147573952589676412928 from by
    rw [roundFloat_pos_eq 53 _ (by norm_num), hr53]]
  rw [roundFloat_pos_eq 24 _ (by norm_num), hr24]

/-- C4 counterexample: the two-byte PCM16 buffer holding the sample 1 is
not reproduced by decode/re-encode — the program returns the buffer for
sample 0 instead, because `float32(1 / 32767) * 32767 = 1 - 2^-30`
truncates to 0. -/
theorem pcm16_reencode_not_idempotent :
    floatTo16BitPCM (pcm16ToFloats [1, 0]) = [0, 0] ∧
    floatTo16BitPCM (pcm16ToFloats [1, 0]) ≠ [1, 0] := by
  have hone : int16OfBytes 1 0 = 1 := by
    unfold int16OfBytes
    norm_num
  have hfl : int16ToFloat 1 = 32769 / 1073741824 := int16ToFloat_one
  have hcl : clamp16 (32769 / 1073741824) = 32769 / 1073741824 := by
    unfold clamp16
    rw [min_eq_right (by norm_num), max_eq_right (by norm_num)]
  have hsc : scaleSample ((32769 : ℚ) / 1073741824) = 1073741823 / 1073741824 := by
    rw [scaleSample, if_neg (by norm_num)]
    norm_num
  have hjt : jsTrunc ((1073741823 : ℚ) / 1073741824) = 0 := by
    rw [jsTrunc_eq_floor _ (by norm_num), Int.floor_eq_iff]
    constructor <;> norm_num
  have henc : encodeSampleInt (int16ToFloat 1) = 0 := by
    rw [hfl, encodeSampleInt, hcl, hsc, hjt]
    decide
  constructor
  · show floatTo16BitPCM (int16ToFloat (int16OfBytes 1 0) :: pcm16ToFloats []) = [0, 0]
    rw [hone]
    show int16Bytes (encodeSampleInt (int16ToFloat 1)) ++ [] = [0, 0]
    rw [henc]
    decide
  · intro hcontra
    have h00 : floatTo16BitPCM (pcm16ToFloats [1, 0]) = [0, 0] := by
      show floatTo16BitPCM (int16ToFloat (int16OfBytes 1 0) :: pcm16ToFloats []) = [0, 0]
      rw [hone]
      show int16Bytes (encodeSampleInt (int16ToFloat 1)) ++ [] = [0, 0]
      rw [henc]
      decide
    rw [h00] at hcontra
    simp at hcontra

/-! ## Voice Gate, auto-detect policy

The directory `src/` of the repository only contains the explicit press-to-talk
variants; the auto-detect silence-detection policy described by the spec
(§4.2) is not present under `src/`, so it is modelled from the spec. -/

/-- Modelled from the spec: sum of squared samples of a frame, the
numerator of the mean-square energy used by the auto-detect policy
(the RMS computation is missing from `src/`). -/
def sumSq : List ℚ → ℚ
  | [] => 0
  | x :: xs => x * x + sumSq xs

/-- Modelled from the spec: a frame is "active" if its RMS exceeds the
threshold 0.01 (missing from `src/`). Stated without square roots:
`RMS > 0.01 ↔ 10000 · Σx² > length`. -/
def isActiveFrame (f : List ℚ) : Bool := decide (10000 * sumSq f > (f.length : ℚ))

/-- Modelled from the spec: the state of the auto-detect Voice Gate — the
UtteranceBuffer (frames in arrival order) and the pending silence-timer
deadline, if any (missing from `src/`). -/
structure GateState where
  buf : List (List ℚ)
  deadline : Option ℚ
  deriving DecidableEq

/-- Modelled from the spec: one frame arriving at time `t` under the
auto-detect policy (missing from `src/`). A pending silence timer whose
deadline has passed fires first (flushing the concatenated buffer);
an active frame is appended and cancels any pending timer; a silent
frame after buffering starts a 1000 ms (= 1 time unit) silence timer.
Returns the new state and the flushes emitted. -/
def gateStep (st : GateState) (t : ℚ) (f : List ℚ) : GateState × List (List ℚ) :=
  let fired : Bool := match st.deadline with
    | some d => decide (d ≤ t)
    | none => false
  let st1 : GateState := if fired then ⟨[], none⟩ else st
  let out : List (List ℚ) := if fired then [st.buf.flatten] else []
  if isActiveFrame f then (⟨st1.buf ++ [f], none⟩, out)
  else if st1.buf ≠ [] ∧ st1.deadline = none then (⟨st1.buf, some (t + 1)⟩, out)
  else (st1, out)

/-- Modelled from the spec: run the auto-detect gate over a sequence of
timed frames, collecting flushes in order (missing from `src/`). -/
def runGate : GateState → List (ℚ × List ℚ) → GateState × List (List ℚ)
  | st, [] => (st, [])
  | st, (t, f) :: rest =>
      ((runGate (gateStep st t f).1 rest).1,
       (gateStep st t f).2 ++ (runGate (gateStep st t f).1 rest).2)

/-- Modelled from the spec: after the stream ends, a pending silence
timer eventually elapses with no further active frame, so it flushes the
buffer (missing from `src/`). -/
def gateFinal (st : GateState) : List (List ℚ) :=
  match st.deadline with
  | some _ => if st.buf = [] then [] else [st.buf.flatten]
  | none => []

/-- Modelled from the spec: all flushes the auto-detect gate ever emits
for a finite frame stream, including the one fired by the silence timer
after the stream ends (missing from `src/`). -/
def gateFlushes (frames : List (ℚ × List ℚ)) : List (List ℚ) :=
  (runGate ⟨[], none⟩ frames).2 ++ gateFinal (runGate ⟨[], none⟩ frames).1

/-! ### Gate lemmas -/

theorem gateStep_silent_idle (t : ℚ) (f : List ℚ) (hf : isActiveFrame f = false) :
    gateStep ⟨[], none⟩ t f = (⟨[], none⟩, []) := by
  simp [gateStep, hf]

theorem gateStep_active (B : List (List ℚ)) (t : ℚ) (f : List ℚ)
    (hf : isActiveFrame f = true) :
    gateStep ⟨B, none⟩ t f = (⟨B ++ [f], none⟩, []) := by
  simp [gateStep, hf]

theorem gateStep_first_silent (B : List (List ℚ)) (t : ℚ) (f : List ℚ)
    (hf : isActiveFrame f = false) (hB : B ≠ []) :
    gateStep ⟨B, none⟩ t f = (⟨B, some (t + 1)⟩, []) := by
  simp [gateStep, hf, hB]

theorem gateStep_pending_late (B : List (List ℚ)) (d t : ℚ) (f : List ℚ)
    (hf : isActiveFrame f = false) (hd : d ≤ t) :
    gateStep ⟨B, some d⟩ t f = (⟨[], none⟩, [B.flatten]) := by
  simp [gateStep, hf, hd]

theorem gateStep_pending_early (B : List (List ℚ)) (d t : ℚ) (f : List ℚ)
    (hf : isActiveFrame f = false) (hd : ¬ d ≤ t) :
    gateStep ⟨B, some d⟩ t f = (⟨B, some d⟩, []) := by
  simp [gateStep, hf, hd]

theorem runGate_idle_silent (l : List (ℚ × List ℚ))
    (h : ∀ x ∈ l, isActiveFrame x.2 = false) :
    runGate ⟨[], none⟩ l = (⟨[], none⟩, []) := by
  induction l with
  | nil => rfl
  | cons hd tl ih =>
    obtain ⟨t, f⟩ := hd
    have hf : isActiveFrame f = false := h (t, f) (by simp)
    simp [runGate, gateStep_silent_idle t f hf, ih (fun x hx => h x (by simp [hx]))]

theorem runGate_pending_silent (B : List (List ℚ)) (hB : B ≠ []) (d : ℚ)
    (l : List (ℚ × List ℚ)) (h : ∀ x ∈ l, isActiveFrame x.2 = false) :
    (runGate ⟨B, some d⟩ l).2 ++ gateFinal (runGate ⟨B, some d⟩ l).1 = [B.flatten] := by
  induction l generalizing d with
  | nil => simp [runGate, gateFinal, hB]
  | cons hd tl ih =>
    obtain ⟨t, f⟩ := hd
    have hf : isActiveFrame f = false := h (t, f) (by simp)
    have htl : ∀ x ∈ tl, isActiveFrame x.2 = false := fun x hx => h x (by simp [hx])
    rcases le_or_lt d t with hd | hd
    · have hrest := runGate_idle_silent tl htl
      simp [runGate, gateStep_pending_late B d t f hf hd, hrest, gateFinal]
    · simp [runGate, gateStep_pending_early B d t f hf (not_le.mpr hd), ih d htl]

theorem runGate_append (st : GateState) (l1 l2 : List (ℚ × List ℚ)) :
    runGate st (l1 ++ l2) =
      ((runGate (runGate st l1).1 l2).1,
       (runGate st l1).2 ++ (runGate (runGate st l1).1 l2).2) := by
  induction l1 generalizing st with
  | nil => simp [runGate]
  | cons hd tl ih =>
    obtain ⟨t, f⟩ := hd
    simp [runGate, ih]

/-- C8: under the auto-detect Voice Gate policy (RMS threshold 0.01,
1000 ms silence timer), a frame stream consisting of silence, then three
active frames, then silence through the end of the stream produces
exactly one flush, containing exactly the three active frames
concatenated in order. -/
theorem autoGate_single_flush (p s : List (ℚ × List ℚ)) (t1 t2 t3 : ℚ)
    (f1 f2 f3 : List ℚ)
    (hp : ∀ x ∈ p, isActiveFrame x.2 = false)
    (h1 : isActiveFrame f1 = true) (h2 : isActiveFrame f2 = true)
    (h3 : isActiveFrame f3 = true)
    (hs : ∀ x ∈ s, isActiveFrame x.2 = false) (hs0 : s ≠ []) :
    gateFlushes (p ++ (t1, f1) :: (t2, f2) :: (t3, f3) :: s) = [f1 ++ f2 ++ f3] := by
  cases s with
  | nil => exact absurd rfl hs0
  | cons hd s2 =>
    obtain ⟨t0, f0⟩ := hd
    have hf0 : isActiveFrame f0 = false := hs (t0, f0) (by simp)
    have hs2 : ∀ x ∈ s2, isActiveFrame x.2 = false := fun x hx => hs x (by simp [hx])
    have e1 : gateStep ⟨[], none⟩ t1 f1 = (⟨[f1], none⟩, []) := by
      simpa using gateStep_active [] t1 f1 h1
    have e2 : gateStep ⟨[f1], none⟩ t2 f2 = (⟨[f1, f2], none⟩, []) := by
      simpa using gateStep_active [f1] t2 f2 h2
    have e3 : gateStep ⟨[f1, f2], none⟩ t3 f3 = (⟨[f1, f2, f3], none⟩, []) := by
      simpa using gateStep_active [f1, f2] t3 f3 h3
    have e4 : gateStep ⟨[f1, f2, f3], none⟩ t0 f0 =
        (⟨[f1, f2, f3], some (t0 + 1)⟩, []) :=
      gateStep_first_silent [f1, f2, f3] t0 f0 hf0 (by simp)
    have hpend := runGate_pending_silent [f1, f2, f3] (by simp) (t0 + 1) s2 hs2
    unfold gateFlushes
    rw [runGate_append, runGate_idle_silent p hp]
    simp only [runGate, e1, e2, e3, e4, List.nil_append]
    simpa [List.flatten] using hpend

/-- Witness for C8: a concrete stream — one silent frame, three active
frames, trailing silence — yields exactly the one flush `[1, 1, 1]`. -/
theorem autoGate_single_flush_witness :
    gateFlushes [(0, [(0 : ℚ)]), (1, [1]), (2, [1]), (3, [1]), (4, [0])] =
      [[(1 : ℚ), 1, 1]] := by
  have h0 : isActiveFrame [(0 : ℚ)] = false := by
    simp [isActiveFrame, sumSq]
  have h1 : isActiveFrame [(1 : ℚ)] = true := by
    simp only [isActiveFrame, sumSq, decide_eq_true_eq]
    norm_num
  have h := autoGate_single_flush [(0, [(0 : ℚ)])] [(4, [0])] 1 2 3 [1] [1] [1]
    (by intro x hx; simp only [List.mem_singleton] at hx; subst hx; exact h0)
    h1 h1 h1
    (by intro x hx; simp only [List.mem_singleton] at hx; subst hx; exact h0)
    (by simp)
  simpa using h

/-! ## Session model — `src/src/App.jsx` (first variant)

The event-driven session is embedded as a state record plus one pure
transition per browser callback. Collapsed or elided pieces, none of
which the claims depend on: the speech-recognition collaborator, the
latency measurement, the `addLog`/UI rendering, and the awaited
microphone/socket acquisition inside `startRecording` (modelled as one
synchronous step that succeeds). `WebSocket.readyState` is kept as a
number (`0` CONNECTING, `1` OPEN, `2` CLOSING, `3` CLOSED); `WebSocket.OPEN`
is `1`. -/

/-- The status strings `setStatus` writes, as an enumeration:
`readyToStart` = "Ready to start", `connecting` = "Connecting...",
`connectedHoldSpace` = "Connected! Hold Space to speak", `listening` =
"Listening...", `processing` = "Processing...", `waitingForResponse` =
"Waiting for response...", `speaking` = "Speaking...", `replyFinished` =
"Reply finished. Your turn.", `disconnected` = "Disconnected",
`stopped` = "Stopped". -/
inductive Status
  | readyToStart
  | connecting
  | connectedHoldSpace
  | listening
  | processing
  | waitingForResponse
  | speaking
  | replyFinished
  | disconnected
  | stopped
  deriving DecidableEq

/-- Messages the client sends on the socket: the `setup` handshake
(App.jsx lines 202-216) and the `realtimeInput`/`mediaChunks` audio
message (lines 88-95), whose payload is the base64 data (character
codes); the constant `mimeType: "audio/pcm"` envelope is implicit. -/
inductive OutMsg
  | setup
  | audioChunk (data : List ℕ)
  deriving DecidableEq

/-- Inbound server messages distinguished by `ws.onmessage` (App.jsx
lines 240-282): `setupComplete`, a model-turn audio part carrying base64
data, and `turnComplete`. -/
inductive ServerMsg
  | setupComplete
  | audioPart (data : List ℕ)
  | turnComplete
  deriving DecidableEq

/-- The session state of `App` (App.jsx lines 11-28): the recording and
space-pressed flags (state + ref pairs collapsed to one field each), the
socket (`none` when `wsRef.current` is null, otherwise its readyState),
whether the processor / source node / media stream / audio context
handles are held, the utterance buffer of captured frames, the playback
timeline `nextStartTimeRef`, and the status line. -/
structure AppState where
  isRecording : Bool
  isSpacePressed : Bool
  ws : Option ℕ
  processor : Bool
  sourceNode : Bool
  mediaStream : Bool
  audioCtx : Bool
  audioBuffer : List (List ℚ)
  nextStartTime : ℚ
  status : Status
  deriving DecidableEq

/-- The initial render: nothing held, `useState` defaults. -/
def initialState : AppState :=
  ⟨false, false, none, false, false, false, false, [], 0, Status.readyToStart⟩

/-- Embedding of `stopRecording` (App.jsx lines 304-346): clear the flags and the
utterance buffer, stop speech recognition, close and drop the socket,
disconnect and null the processor handler, disconnect the source, stop
the media tracks, close the audio context. -/
def stopRecording (s : AppState) : AppState :=
  { s with
    isRecording := false
    status := Status.stopped
    isSpacePressed := false
    audioBuffer := []
    ws := none
    processor := false
    sourceNode := false
    mediaStream := false
    audioCtx := false }

/-- Embedding of `startRecording` (App.jsx lines 112-302): returns immediately when
`isRecordingRef.current` is already set; otherwise flags recording,
resets `nextStartTimeRef` and the buffer, and acquires the audio
context, microphone stream and socket (the awaited acquisitions are
collapsed into this step, with the socket created in CONNECTING
state). -/
def startRecording (s : AppState) : AppState :=
  if s.isRecording then s
  else
    { s with
      isRecording := true
      status := Status.connecting
      nextStartTime := 0
      audioBuffer := []
      audioCtx := true
      mediaStream := true
      ws := some 0 }

/-- Embedding of `handleKeyDown` (App.jsx lines 39-56): on Space, when not already
pressed and recording, set the pressed flag and the listening status. -/
def handleKeyDown (s : AppState) : AppState :=
  if s.isSpacePressed = false ∧ s.isRecording = true then
    { s with isSpacePressed := true, status := Status.listening }
  else s

/-- Embedding of `handleKeyUp` (App.jsx lines 58-101): on Space, when pressed and
recording, clear the pressed flag; then, if the socket exists with
readyState OPEN and the buffer is non-empty, concatenate the buffered
frames in order, PCM16-encode, base64-encode, send one
`realtimeInput`/`mediaChunks` message, and clear the buffer. Returns the
new state and the messages sent. -/
def handleKeyUp (s : AppState) : AppState × List OutMsg :=
  if s.isSpacePressed = true ∧ s.isRecording = true then
    let s1 := { s with isSpacePressed := false }
    if s1.ws = some 1 ∧ 0 < s1.audioBuffer.length then
      ({ s1 with audioBuffer := [], status := Status.waitingForResponse },
       [OutMsg.audioChunk (arrayBufferToBase64 (floatTo16BitPCM s1.audioBuffer.flatten))])
    else (s1, [])
  else (s, [])

/-- Embedding of `processor.onaudioprocess` (App.jsx lines 225-230): while the
handler is installed, a captured frame is pushed onto the utterance
buffer exactly when the readyState of the socket is OPEN and the spacebar is
held; otherwise it is dropped. -/
def onAudioProcess (s : AppState) (f : List ℚ) : AppState :=
  if s.processor = true ∧ s.ws = some 1 ∧ s.isSpacePressed = true then
    { s with audioBuffer := s.audioBuffer ++ [f] }
  else s

/-- Embedding of `ws.onopen` (App.jsx lines 190-238): if recording was cancelled
meanwhile, close the socket; otherwise the socket is now OPEN, the
`setup` message is sent, and the capture graph (source + processor) is
installed. -/
def wsOnOpen (s : AppState) : AppState × List OutMsg :=
  if s.isRecording = false then ({ s with ws := some 2 }, [])
  else
    ({ s with
       ws := some 1
       status := Status.connectedHoldSpace
       processor := true
       sourceNode := true }, [OutMsg.setup])

/-- Embedding of `ws.onmessage` (App.jsx lines 240-282): ignore everything once not
recording; `setupComplete` is acknowledged without recording any state;
an audio part is base64-decoded and scheduled at
`max(now, nextStartTime)` (with `now` the `audioContext.currentTime`
observed during the callback), advancing `nextStartTime` by
`sampleCount / 24000`; `turnComplete` updates the status. -/
def wsOnMessage (s : AppState) (now : ℚ) (m : ServerMsg) : AppState :=
  if s.isRecording = false then s
  else
    match m with
    | ServerMsg.setupComplete => s
    | ServerMsg.turnComplete => { s with status := Status.replyFinished }
    | ServerMsg.audioPart data =>
        if s.audioCtx = true then
          { s with
            nextStartTime := max now s.nextStartTime +
              (((base64ToArrayBuffer data).length / 2 : ℕ) : ℚ) / 24000
            status := Status.speaking }
        else s

/-- Embedding of `ws.onclose` (App.jsx lines 290-295): if still recording, show
"Disconnected" and tear down via `stopRecording`; otherwise nothing. -/
def wsOnClose (s : AppState) : AppState :=
  if s.isRecording = true then stopRecording { s with status := Status.disconnected }
  else s

/-- The asynchronous occurrences that drive the session: the two UI
commands, the keyboard handlers, a capture callback delivering a frame,
the socket callbacks, and a transport-level readyState change (the
state of the socket moves before the corresponding close event is
dispatched, so it is a separate occurrence with no handler code). -/
inductive Event
  | startCmd
  | stopCmd
  | keyDown
  | keyUp
  | audioFrame (f : List ℚ)
  | wsOpen
  | wsClosed
  | wsMessage (now : ℚ) (m : ServerMsg)
  | wsReadyState (r : ℕ)

/-- Dispatch one event to its handler; returns the new state and the
messages sent on the socket. -/
def step (s : AppState) : Event → AppState × List OutMsg
  | Event.startCmd => (startRecording s, [])
  | Event.stopCmd => (stopRecording s, [])
  | Event.keyDown => (handleKeyDown s, [])
  | Event.keyUp => handleKeyUp s
  | Event.audioFrame f => (onAudioProcess s f, [])
  | Event.wsOpen => wsOnOpen s
  | Event.wsClosed => (wsOnClose s, [])
  | Event.wsMessage now m => (wsOnMessage s now m, [])
  | Event.wsReadyState r =>
      match s.ws with
      | none => (s, [])
      | some _ => ({ s with ws := some r }, [])

/-- Run a sequence of events, collecting every message sent. -/
def run (s : AppState) : List Event → AppState × List OutMsg
  | [] => (s, [])
  | e :: es =>
      ((run (step s e).1 es).1, (step s e).2 ++ (run (step s e).1 es).2)

/-! ## Claim theorems: session model -/

/-- C5 (amended): while recording with the gate held, a gate-close
(key-up) emits a flush **iff the utterance buffer is non-empty and the
WebSocket is OPEN**; when it flushes, it emits exactly one `AudioChunk`
whose transport payload decodes back to the PCM16 encoding of the
concatenation of the buffered frames in arrival order, and the buffer is
empty afterwards. (The claim as stated omits the socket-open
condition.) -/
theorem gateClose_flush (s : AppState) (hr : s.isRecording = true)
    (hp : s.isSpacePressed = true) :
    ((handleKeyUp s).2 ≠ [] ↔ (s.ws = some 1 ∧ s.audioBuffer ≠ [])) ∧
    (s.ws = some 1 → s.audioBuffer ≠ [] →
      (handleKeyUp s).2 =
        [OutMsg.audioChunk
          (arrayBufferToBase64 (floatTo16BitPCM s.audioBuffer.flatten))] ∧
      base64ToArrayBuffer
          (arrayBufferToBase64 (floatTo16BitPCM s.audioBuffer.flatten)) =
        floatTo16BitPCM s.audioBuffer.flatten ∧
      (handleKeyUp s).1.audioBuffer = []) := by
  by_cases hw : s.ws = some 1
  · by_cases hb : s.audioBuffer = []
    · refine ⟨?_, fun _ hb2 => absurd hb hb2⟩
      simp [handleKeyUp, hp, hr, hw, hb]
    · have hlen : 0 < s.audioBuffer.length := List.length_pos.mpr hb
      refine ⟨by simp [handleKeyUp, hp, hr, hw, hb, hlen], fun _ _ => ?_⟩
      refine ⟨by simp [handleKeyUp, hp, hr, hw, hlen],
        b64RoundtripAux _ (floatTo16BitPCM_lt _),
        by simp [handleKeyUp, hp, hr, hw, hlen]⟩
  · refine ⟨?_, fun hw2 => absurd hw2 hw⟩
    simp [handleKeyUp, hp, hr, hw]

/-- Witness for the amended C5 theorem: a recording, gate-held state with
an open socket and one buffered frame flushes it as a single decodable
`AudioChunk` and clears the buffer. -/
theorem gateClose_flush_witness :
    (handleKeyUp
      ⟨true, true, some 1, true, true, true, true, [[1]], 0, Status.listening⟩).2 =
      [OutMsg.audioChunk
        (arrayBufferToBase64 (floatTo16BitPCM ([[(1 : ℚ)]].flatten)))] ∧
    base64ToArrayBuffer
        (arrayBufferToBase64 (floatTo16BitPCM ([[(1 : ℚ)]].flatten))) =
      floatTo16BitPCM ([[(1 : ℚ)]].flatten) ∧
    (handleKeyUp
      ⟨true, true, some 1, true, true, true, true, [[1]], 0, Status.listening⟩).1.audioBuffer =
      [] := by
  have h := gateClose_flush
    ⟨true, true, some 1, true, true, true, true, [[1]], 0, Status.listening⟩ rfl rfl
  exact h.2 rfl (by simp)

/-- C5 counterexample: in a reachable run — session started, socket
opened, gate held, one frame captured, then the transport readyState
drops to CLOSED before the close event is dispatched — the gate-close
emits **no** flush although the utterance buffer is non-empty, refuting
"a gate-close event emits a flush if and only if the utterance buffer is
non-empty". -/
theorem gateClose_no_flush_cex :
    (run initialState
      [Event.startCmd, Event.wsOpen, Event.keyDown, Event.audioFrame [1],
       Event.wsReadyState 3, Event.keyUp]).2 = [OutMsg.setup] ∧
    (run initialState
      [Event.startCmd, Event.wsOpen, Event.keyDown, Event.audioFrame [1],
       Event.wsReadyState 3, Event.keyUp]).1.audioBuffer = [[(1 : ℚ)]] :=
  ⟨rfl, rfl⟩

/-- C6 (amended): a gate-close while the WebSocket is not in readyState
OPEN (or absent) is a deterministic no-op: no message is sent and the
utterance buffer is unchanged. (The code gates transmission on the raw
socket being OPEN, not on `SetupComplete` having been received, so audio
can be sent before the protocol session is Open — see the
counterexample.) -/
theorem sendUtterance_requires_socket_open (s : AppState) (h : s.ws ≠ some 1) :
    (handleKeyUp s).2 = [] ∧ (handleKeyUp s).1.audioBuffer = s.audioBuffer := by
  unfold handleKeyUp
  by_cases hg : s.isSpacePressed = true ∧ s.isRecording = true
  · simp [hg, h]
  · simp [hg]

/-- Witness for the amended C6 theorem: gate-close on a CONNECTING socket
sends nothing and keeps the buffer. -/
theorem sendUtterance_requires_socket_open_witness :
    (handleKeyUp
      ⟨true, true, some 0, true, true, true, true, [[1]], 0, Status.listening⟩).2 = [] ∧
    (handleKeyUp
      ⟨true, true, some 0, true, true, true, true, [[1]], 0, Status.listening⟩).1.audioBuffer =
      [[(1 : ℚ)]] := by
  have h := sendUtterance_requires_socket_open
    ⟨true, true, some 0, true, true, true, true, [[1]], 0, Status.listening⟩ (by simp)
  exact ⟨h.1, h.2⟩

/-- Whether a trace contains a `setupComplete` server message. -/
def traceHasSetupComplete : List Event → Bool
  | [] => false
  | Event.wsMessage _ ServerMsg.setupComplete :: _ => true
  | _ :: es => traceHasSetupComplete es

/-- C6 counterexample: a run in which no `setupComplete` message is ever
received still transmits an `AudioChunk` — the socket opened, the gate
was held over one frame, and the gate-close sent audio before the
protocol session reached Open, refuting "no audio message is ever
transmitted before SetupComplete has been received". -/
theorem audioChunk_before_open_cex :
    (run initialState
      [Event.startCmd, Event.wsOpen, Event.keyDown, Event.audioFrame [1],
       Event.keyUp]).2 =
      [OutMsg.setup,
       OutMsg.audioChunk (arrayBufferToBase64 (floatTo16BitPCM [(1 : ℚ)]))] ∧
    traceHasSetupComplete
      [Event.startCmd, Event.wsOpen, Event.keyDown, Event.audioFrame [1],
       Event.keyUp] = false :=
  ⟨rfl, rfl⟩

/-- C7: after `stopRecording` returns, invoked from any state, no
resource handle survives — socket, processor, source node, media
stream and audio context are all released, the buffer is cleared, and
the state is Stopped — and every callback that could still fire on the
torn-down session (capture, socket message, socket close, the key
handlers, or a second stop) is a no-op that does not mutate the state.
(This variant of the source holds no timers.) -/
theorem stop_teardown (s : AppState) :
    (stopRecording s).isRecording = false ∧
    (stopRecording s).status = Status.stopped ∧
    (stopRecording s).ws = none ∧
    (stopRecording s).processor = false ∧
    (stopRecording s).sourceNode = false ∧
    (stopRecording s).mediaStream = false ∧
    (stopRecording s).audioCtx = false ∧
    (stopRecording s).audioBuffer = [] ∧
    (stopRecording s).isSpacePressed = false ∧
    (∀ f, onAudioProcess (stopRecording s) f = stopRecording s) ∧
    (∀ now m, wsOnMessage (stopRecording s) now m = stopRecording s) ∧
    wsOnClose (stopRecording s) = stopRecording s ∧
    handleKeyDown (stopRecording s) = stopRecording s ∧
    handleKeyUp (stopRecording s) = (stopRecording s, []) ∧
    stopRecording (stopRecording s) = stopRecording s :=
  ⟨rfl, rfl, rfl, rfl, rfl, rfl, rfl, rfl, rfl,
   fun _ => rfl, fun _ _ => rfl, rfl, rfl, rfl, rfl⟩

/-- C9: `startRecording` is a no-op when a session is already active:
with `isRecordingRef.current` set it returns the state unchanged. -/
theorem start_noop (s : AppState) (h : s.isRecording = true) :
    startRecording s = s := by
  simp [startRecording, h]

/-- Witness for C9 at a concrete recording state. -/
theorem start_noop_witness :
    startRecording { initialState with isRecording := true } =
      { initialState with isRecording := true } :=
  start_noop _ rfl

/-- C10: while the capture handler is installed, a microphone frame is
appended to the utterance buffer exactly when the readyState of the socket is
OPEN **and** the gate (spacebar) is held; in every other case — in
particular gate held but socket not open — the frame is discarded and
the whole state is unchanged, so the frame is never buffered or sent
later. -/
theorem frame_buffered_iff (s : AppState) (f : List ℚ) (hp : s.processor = true) :
    ((onAudioProcess s f).audioBuffer = s.audioBuffer ++ [f] ↔
      (s.ws = some 1 ∧ s.isSpacePressed = true)) ∧
    (¬(s.ws = some 1 ∧ s.isSpacePressed = true) → onAudioProcess s f = s) := by
  by_cases hcond : s.ws = some 1 ∧ s.isSpacePressed = true
  · refine ⟨⟨fun _ => hcond, fun _ => ?_⟩, fun hn => absurd hcond hn⟩
    simp [onAudioProcess, hp, hcond.1, hcond.2]
  · have hid : onAudioProcess s f = s := by
      simp only [onAudioProcess]
      rw [if_neg (by simp [hp]; intro h1; simp [h1] at hcond; exact hcond)]
    refine ⟨⟨fun heq => ?_, fun hc => absurd hc hcond⟩, fun _ => hid⟩
    exfalso
    rw [hid] at heq
    have hlength := congrArg List.length heq
    simp at hlength

/-- Witness for C10: with the processor installed, an open socket and
the gate held, a frame is appended to the (empty) buffer. -/
theorem frame_buffered_iff_witness :
    (onAudioProcess
        ⟨true, true, some 1, true, true, true, true, [], 0, Status.listening⟩
        [1]).audioBuffer = [] ++ [[(1 : ℚ)]] := by
  have h := frame_buffered_iff
    ⟨true, true, some 1, true, true, true, true, [], 0, Status.listening⟩ [1] rfl
  exact h.1.mpr ⟨rfl, rfl⟩

end AudioSocket
